import Mathlib

/-!
# Verification of `munkres-arma` (`src/munkres-arma/munkres.hpp`)

Shallow embedding of the Hungarian / Kuhn-Munkres assignment solver of
`munkres.hpp`.  The C++ class is templated over its element type `eT`; the
embedding mirrors that: the five-step engine (`step1` .. `step5`,
`find_uncovered`, `pair_in_list`, the `solve` loop) is defined once over an
operations record `Ops α`, and instantiated

* at `ℚ` (`qops`) for the core algorithmic claims — the spec models entries
  as real numbers, and every value the engine manipulates after
  preprocessing is finite; and
* at `FV` (`fops`), a four-point extension of `ℚ` with `+∞`, `-∞` and `NaN`
  following IEEE-754 comparison/arithmetic rules, for the claims about
  infinity replacement, NaN handling and input validation.

The unbounded `while (step)` loop of `solve` is modelled by a fuel-indexed
iteration `runMachine`; termination is then a theorem about sufficient fuel.
-/

set_option autoImplicit false

namespace Munkres

/-- Mask tags, as in the source: `NORMAL = 0`, `STAR = 1`, `PRIME = 2`. -/
def NORMAL : Nat := 0

/-- `STAR = 1` marks a tentative assignment. -/
def STAR : Nat := 1

/-- `PRIME = 2` marks a zero found during the augmenting-path search. -/
def PRIME : Nat := 2

/-- The element-type operations the templated `munkres<eT>` engine uses:
literal `0`, `==`, `>`, `+`, `-`. -/
structure Ops (α : Type) where
  zero : α
  beq : α → α → Bool
  gt : α → α → Bool
  add : α → α → α
  sub : α → α → α

/-- The mutable fields of a `munkres<eT>` object: the square working matrix
`matrix_` (dimension `n`), the mask, the row/column cover vectors and the
saved-zero registers.  Two-dimensional data is a function of the two
subscripts; only subscripts `< n` are ever read by the engine. -/
structure St (α : Type) where
  n : Nat
  matrix_ : Nat → Nat → α
  mask_ : Nat → Nat → Nat
  row_mask_ : Nat → Bool
  col_mask_ : Nat → Bool
  saverow_ : Nat
  savecol_ : Nat

/-- Write one cell of a two-subscript function (e.g. `mask_.at(r, c) = v`). -/
def upd2 {α : Type} (f : Nat → Nat → α) (r c : Nat) (v : α) : Nat → Nat → α :=
  fun r' c' => if r' = r ∧ c' = c then v else f r' c'

/-- `munkres::pair_in_list`: membership of a subscript pair in the
alternating sequence. -/
def pair_in_list (needle : Nat × Nat) (haystack : List (Nat × Nat)) : Bool :=
  haystack.any fun p => p.1 == needle.1 && p.2 == needle.2

/-- The first inner scan of `step1`: does column `c` of mask `m` contain a
STAR in some row `< n`? -/
def colHasStar (n : Nat) (m : Nat → Nat → Nat) (c : Nat) : Bool :=
  (List.range n).any fun r => m r c == STAR

/-- The second inner scan of `step1`: does row `r` contain a STAR? -/
def rowHasStar (n : Nat) (m : Nat → Nat → Nat) (r : Nat) : Bool :=
  (List.range n).any fun c => m r c == STAR

/-- `munkres::step1`: scan the matrix row-major; star each zero whose column
and row do not already contain a star.  Returns `2`. -/
def step1 {α : Type} (ops : Ops α) (s : St α) : Nat × St α :=
  let m :=
    (List.range s.n).foldl (fun m r =>
      (List.range s.n).foldl (fun m c =>
        if ops.beq ops.zero (s.matrix_ r c) && !colHasStar s.n m c && !rowHasStar s.n m r then
          upd2 m r c STAR
        else m) m) s.mask_
  (2, { s with mask_ := m })

/-- The `covercount` accumulated by `step2`: one per STAR cell of the mask,
scanned row-major as in the source. -/
def starCount (n : Nat) (m : Nat → Nat → Nat) : Nat :=
  ((List.range n).map fun r => ((List.range n).filter fun c => m r c == STAR).length).sum

/-- `munkres::step2`: cover every column containing a STAR, counting the
starred cells; return `0` (DONE) when `covercount ≥ min(size(matrix_)) = n`,
else `3`. -/
def step2 {α : Type} (s : St α) : Nat × St α :=
  let cm := fun c =>
    s.col_mask_ c || (decide (c < s.n) && (List.range s.n).any fun r => s.mask_ r c == STAR)
  let s' := { s with col_mask_ := cm }
  if s.n ≤ starCount s.n s.mask_ then (0, s') else (3, s')

/-- `munkres::find_uncovered`: column-major scan of the uncovered cells for
the first one equal to `item`; `solve` only calls it with `item = 0`.
Returns the `(row, col)` subscripts on success.  (On failure the C++ writes
the loop counters through the caller's references; those values are never
read before being overwritten, so the embedding drops them.) -/
def find_uncovered {α : Type} (ops : Ops α) (item : α) (s : St α) : Option (Nat × Nat) :=
  (List.range s.n).findSome? fun c =>
    if s.col_mask_ c then none
    else
      (List.range s.n).findSome? fun r =>
        if s.row_mask_ r then none
        else if ops.beq (s.matrix_ r c) item then some (r, c) else none

/-- `munkres::step3`: find an uncovered zero; if none, go to `5`.  Otherwise
prime it and record it in the saved registers; if its row contains a STAR,
cover the row, uncover that star's column and repeat (`3`), else go to `4`. -/
def step3 {α : Type} (ops : Ops α) (s : St α) : Nat × St α :=
  match find_uncovered ops ops.zero s with
  | none => (5, s)
  | some (r, c) =>
    let s1 := { s with mask_ := upd2 s.mask_ r c PRIME, saverow_ := r, savecol_ := c }
    match (List.range s1.n).find? (fun col => s1.mask_ r col == STAR) with
    | some c2 =>
      (3, { s1 with
              row_mask_ := fun r' => if r' = r then true else s1.row_mask_ r'
              col_mask_ := fun c' => if c' = c2 then false else s1.col_mask_ c' })
    | none => (4, s1)

/-- The alternating-sequence construction of `step4`: starting from the
sequence seeded with `Z0` and its column, repeatedly append the first
unvisited STAR of the current column, then the first unvisited PRIME of that
star's row, until either search fails.  The do-while of the source always
makes progress (each pass appends at least one fresh pair), so any fuel
`≥ n * n + 2` is enough. -/
def buildSeq (n : Nat) (m : Nat → Nat → Nat) :
    Nat → List (Nat × Nat) → Nat → List (Nat × Nat)
  | 0, seq, _ => seq
  | fuel + 1, seq, col =>
    match (List.range n).find? (fun r => m r col == STAR && !pair_in_list (r, col) seq) with
    | none => seq
    | some row =>
      let seq1 := seq ++ [(row, col)]
      match (List.range n).find? (fun c => m row c == PRIME && !pair_in_list (row, c) seq1) with
      | none => seq1
      | some c2 => buildSeq n m fuel (seq1 ++ [(row, c2)]) c2

/-- `munkres::step4`: build the alternating sequence from the saved zero,
unstar its stars and star its primes, erase all primes, uncover everything,
and return `2`. -/
def step4 {α : Type} (s : St α) : Nat × St α :=
  let seq := buildSeq s.n s.mask_ (s.n * s.n + 2) [(s.saverow_, s.savecol_)] s.savecol_
  let m1 := fun r c =>
    if pair_in_list (r, c) seq then
      if s.mask_ r c == STAR then NORMAL
      else if s.mask_ r c == PRIME then STAR
      else s.mask_ r c
    else s.mask_ r c
  let m2 := fun r c => if m1 r c == PRIME then NORMAL else m1 r c
  (2, { s with mask_ := m2, row_mask_ := fun _ => false, col_mask_ := fun _ => false })

/-- The `h` scan of `munkres::step5`, exactly as in the source:
`h` starts at `0` and is replaced by an uncovered entry `v` whenever
`(h > v && v != 0) || h == 0`. -/
def step5h {α : Type} (ops : Ops α) (s : St α) : α :=
  (List.range s.n).foldl (fun h r =>
    if s.row_mask_ r then h
    else
      (List.range s.n).foldl (fun h c =>
        if s.col_mask_ c then h
        else
          if (ops.gt h (s.matrix_ r c) && !ops.beq (s.matrix_ r c) ops.zero)
              || ops.beq h ops.zero then
            s.matrix_ r c
          else h) h) ops.zero

/-- `munkres::step5`: compute `h`, add it to every covered row, subtract it
from every uncovered column, and return `3`. -/
def step5 {α : Type} (ops : Ops α) (s : St α) : Nat × St α :=
  let h := step5h ops s
  let A1 := fun r c =>
    if s.row_mask_ r && decide (r < s.n) && decide (c < s.n) then ops.add (s.matrix_ r c) h
    else s.matrix_ r c
  let A2 := fun r c =>
    if !s.col_mask_ c && decide (c < s.n) && decide (r < s.n) then ops.sub (A1 r c) h
    else A1 r c
  (3, { s with matrix_ := A2 })

/-- One dispatch of the `switch (step)` in `solve`'s loop. -/
def stepOnce {α : Type} (ops : Ops α) : Nat × St α → Nat × St α
  | (1, s) => step1 ops s
  | (2, s) => step2 s
  | (3, s) => step3 ops s
  | (4, s) => step4 s
  | (5, s) => step5 ops s
  | p => p

/-- The `while (step) { switch ... }` loop, fuel-indexed: `some` final state
when the loop reaches `step = 0` within `fuel` iterations. -/
def runMachine {α : Type} (ops : Ops α) : Nat → Nat × St α → Option (St α)
  | _, (0, s) => some s
  | 0, _ => none
  | fuel + 1, (k, s) => runMachine ops fuel (stepOnce ops (k, s))

/-- Stable insertion of a subscript pair into a row-sorted list: the pair
goes after every pair with row subscript `≤` its own (the stable-sort order
of `arma::stable_sort_index`). -/
def insertRow (p : Nat × Nat) : List (Nat × Nat) → List (Nat × Nat)
  | [] => [p]
  | q :: qs => if q.1 ≤ p.1 then q :: insertRow p qs else p :: q :: qs

/-- Stable sort by row subscript (`arma::sortrows(…, 0)` via
`stable_sort_index`), as insertion sort. -/
def sortByRow : List (Nat × Nat) → List (Nat × Nat)
  | [] => []
  | p :: ps => insertRow p (sortByRow ps)

/-- The tail of `solve`: resize the mask back to R×C, list the STAR cells in
column-major order (`find(mask_ == STAR)` + `ind2sub`), and stably sort the
subscript pairs by row subscript (`sortrows(…, 0)`). -/
def extract (R C : Nat) (m : Nat → Nat → Nat) : List (Nat × Nat) :=
  let colMajor := (List.range C).flatMap fun c =>
    (List.range R).filterMap fun r => if m r c == STAR then some (r, c) else none
  sortByRow colMajor

/-! ## The ℚ instantiation -/

/-- The `Ops` of a finite real element type, at `ℚ`. -/
def qops : Ops ℚ where
  zero := 0
  beq := fun a b => decide (a = b)
  gt := fun a b => decide (b < a)
  add := (· + ·)
  sub := (· - ·)

/-- arma's comparison scan for the minimum of a (nonempty) range; the `[]`
case is junk (never reached for `n ≥ 1`). -/
def listMin : List ℚ → ℚ
  | [] => 0
  | x :: xs => xs.foldl min x

/-- arma's comparison scan for the maximum of a (nonempty) range. -/
def listMax : List ℚ → ℚ
  | [] => 0
  | x :: xs => xs.foldl max x

/-- One entry of `min(matrix_, 1)`: the minimum of row `r`. -/
def rowmin (n : Nat) (A : Nat → Nat → ℚ) (r : Nat) : ℚ :=
  listMin ((List.range n).map fun c => A r c)

/-- One entry of `min(matrix_, 0)`: the minimum of column `c`. -/
def colmin (n : Nat) (A : Nat → Nat → ℚ) (c : Nat) : ℚ :=
  listMin ((List.range n).map fun r => A r c)

/-- `matrix_.each_col() -= min(matrix_, 1)`: subtract each row's minimum. -/
def rowReduce (n : Nat) (A : Nat → Nat → ℚ) : Nat → Nat → ℚ :=
  fun r c => A r c - rowmin n A r

/-- `matrix_.each_row() -= min(matrix_, 0)`: subtract each column's minimum. -/
def colReduce (n : Nat) (A : Nat → Nat → ℚ) : Nat → Nat → ℚ :=
  fun r c => A r c - colmin n A c

/-- `matrix_.max()` over the original R×C matrix (column-major element
order, as arma stores it). -/
def matMax (R C : Nat) (A : Nat → Nat → ℚ) : ℚ :=
  listMax ((List.range C).flatMap fun c => (List.range R).map fun r => A r c)

/-- The squaring step of `solve`: when the matrix is not square, resize to
`n × n` and fill every cell beyond the original extent with
`matrix_.max()`. -/
def pad (R C : Nat) (A : Nat → Nat → ℚ) : Nat → Nat → ℚ :=
  if R = C then A
  else
    let v := matMax R C A
    fun r c => if r < R ∧ c < C then A r c else v

/-- The working matrix handed to the step machine: padded, then row-reduced,
then column-reduced.  (Over `ℚ` every entry is finite, so `matrix_.has_inf()`
is `false` and the infinity-replacement branch is the identity; that branch
is modelled in the `FV` instantiation below.) -/
def workingMatrix (R C : Nat) (A : Nat → Nat → ℚ) : Nat → Nat → ℚ :=
  let n := max R C
  colReduce n (rowReduce n (pad R C A))

/-- The `munkres` object state at the top of the step loop: fresh matrix,
mask and covers; the saved-zero registers `sr`, `sc` keep whatever the
object held before the call (the C++ never initialises them). -/
def initSt (R C : Nat) (A : Nat → Nat → ℚ) (sr sc : Nat) : St ℚ where
  n := max R C
  matrix_ := workingMatrix R C A
  mask_ := fun _ _ => NORMAL
  row_mask_ := fun _ => false
  col_mask_ := fun _ => false
  saverow_ := sr
  savecol_ := sc

/-- `munkres::solve` on an object whose saved-zero registers hold `sr`, `sc`
from an earlier call. -/
def solveWith (sr sc fuel R C : Nat) (A : Nat → Nat → ℚ) : Option (List (Nat × Nat)) :=
  (runMachine qops fuel (1, initSt R C A sr sc)).map fun s => extract R C s.mask_

/-- `munkres::solve` on a fresh object. -/
def solve (fuel R C : Nat) (A : Nat → Nat → ℚ) : Option (List (Nat × Nat)) :=
  solveWith 0 0 fuel R C A

/-! ## The IEEE-value instantiation -/

/-- A `double`-like value: a finite rational, `+∞`, `-∞` or `NaN`. -/
inductive FV where
  | num : ℚ → FV
  | pinf : FV
  | minf : FV
  | nan : FV
deriving DecidableEq

/-- IEEE `==`: `NaN` compares unequal to everything, including itself. -/
def fvBeq : FV → FV → Bool
  | .num a, .num b => decide (a = b)
  | .pinf, .pinf => true
  | .minf, .minf => true
  | _, _ => false

/-- IEEE `>`: any comparison involving `NaN` is false. -/
def fvGt : FV → FV → Bool
  | .num a, .num b => decide (b < a)
  | .num _, .minf => true
  | .pinf, .num _ => true
  | .pinf, .minf => true
  | _, _ => false

/-- IEEE `+`. -/
def fvAdd : FV → FV → FV
  | .num a, .num b => .num (a + b)
  | .nan, _ => .nan
  | _, .nan => .nan
  | .pinf, .minf => .nan
  | .minf, .pinf => .nan
  | .pinf, _ => .pinf
  | _, .pinf => .pinf
  | .minf, _ => .minf
  | _, .minf => .minf

/-- IEEE `-`. -/
def fvSub : FV → FV → FV
  | .num a, .num b => .num (a - b)
  | .nan, _ => .nan
  | _, .nan => .nan
  | .pinf, .pinf => .nan
  | .minf, .minf => .nan
  | .pinf, _ => .pinf
  | .minf, _ => .minf
  | _, .pinf => .minf
  | _, .minf => .pinf

/-- Is the value finite (arma `is_finite` / `find_finite`)? -/
def fvIsFinite : FV → Bool
  | .num _ => true
  | _ => false

/-- Is the value `±∞` (arma `has_inf`)?  `NaN` is not infinite. -/
def fvIsInf : FV → Bool
  | .pinf => true
  | .minf => true
  | _ => false

/-- The engine's operations at `FV`. -/
def fops : Ops FV where
  zero := .num 0
  beq := fvBeq
  gt := fvGt
  add := fvAdd
  sub := fvSub

/-- arma `.max()`: comparison scan `if (v > m) m = v` seeded with the first
element; `none` models the `logic_error` arma raises on an empty object. -/
def fvMaxScan : List FV → Option FV
  | [] => none
  | x :: xs => some (xs.foldl (fun m v => if fvGt v m then v else m) x)

/-- arma `min` along a (nonempty) row or column, same comparison scan;
`[]` junk, never reached for `n ≥ 1`. -/
def fvMinScan : List FV → FV
  | [] => .num 0
  | x :: xs => xs.foldl (fun m v => if fvGt m v then v else m) x

/-- The elements of an R×C matrix in arma's column-major storage order. -/
def fvCells (R C : Nat) (A : Nat → Nat → FV) : List FV :=
  (List.range C).flatMap fun c => (List.range R).map fun r => A r c

/-- Row reduction at `FV`. -/
def fvRowReduce (n : Nat) (A : Nat → Nat → FV) : Nat → Nat → FV :=
  fun r c => fvSub (A r c) (fvMinScan ((List.range n).map fun c' => A r c'))

/-- Column reduction at `FV`. -/
def fvColReduce (n : Nat) (A : Nat → Nat → FV) : Nat → Nat → FV :=
  fun r c => fvSub (A r c) (fvMinScan ((List.range n).map fun r' => A r' c))

/-- The squaring step of `solve` at `double`: when the matrix is not square,
fill the new cells with `matrix_.max()`; arma raises a `logic_error`
(modelled as `Except.error ()`) when `.max()` is taken over an empty
matrix. -/
def padStage (R C : Nat) (A : Nat → Nat → FV) : Except Unit (Nat → Nat → FV) :=
  if R = C then pure A
  else
    match fvMaxScan (fvCells R C A) with
    | none => throw ()
    | some v => pure fun r c => if r < R ∧ c < C then A r c else v

/-- The infinity-replacement step of `solve`: when `matrix_.has_inf()`, every
non-finite cell (`find_nonfinite`, which includes NaN) is overwritten with
the maximum over the finite cells; `.max()` over no finite cells (an
all-infinite matrix) raises arma's `logic_error`.  When `has_inf()` is
false — in particular for a matrix containing NaN but no infinity — nothing
is replaced. -/
def replaceStage (n : Nat) (A : Nat → Nat → FV) : Except Unit (Nat → Nat → FV) :=
  if (fvCells n n A).any fvIsInf then
    match fvMaxScan ((fvCells n n A).filter fvIsFinite) with
    | none => throw ()
    | some mx => pure fun r c => if r < n ∧ c < n ∧ fvIsFinite (A r c) = false then mx else A r c
  else pure A

/-- `munkres::solve` at element type `double`, including the squaring and
infinity-replacement preprocessing.  `Except.error ()` models the
`logic_error` arma raises when `.max()` is taken over an empty range (an
empty input matrix, or `find_finite` of an all-infinite matrix); the inner
`Option` is the fuel-indexed termination of the step loop. -/
def fvSolve (fuel R C : Nat) (A : Nat → Nat → FV) :
    Except Unit (Option (List (Nat × Nat))) := do
  let n := max R C
  let A1 ← padStage R C A
  let A2 ← replaceStage n A1
  let st : St FV :=
    { n := n
      matrix_ := fvColReduce n (fvRowReduce n A2)
      mask_ := fun _ _ => NORMAL
      row_mask_ := fun _ => false
      col_mask_ := fun _ => false
      saverow_ := 0
      savecol_ := 0 }
  pure ((runMachine fops fuel (1, st)).map fun s => extract R C s.mask_)

/-! ## Vocabulary for the claims -/

/-- A pairing in the sense of the spec: `min(R, C)` pairs of in-range
subscripts, no row repeated, no column repeated. -/
def ValidPairing (R C : Nat) (p : List (Nat × Nat)) : Prop :=
  p.length = min R C ∧ (∀ q ∈ p, q.1 < R ∧ q.2 < C) ∧
    (p.map Prod.fst).Nodup ∧ (p.map Prod.snd).Nodup

instance (R C : Nat) (p : List (Nat × Nat)) : Decidable (ValidPairing R C p) := by
  unfold ValidPairing; infer_instance

/-- The total cost of a pairing against a (finite) cost matrix. -/
def pairingCost (A : Nat → Nat → ℚ) (p : List (Nat × Nat)) : ℚ :=
  (p.map fun q => A q.1 q.2).sum

/-- The total cost of a pairing against a `double` cost matrix. -/
def fvPairingCost (A : Nat → Nat → FV) (p : List (Nat × Nat)) : FV :=
  (p.map fun q => A q.1 q.2).foldl fvAdd (.num 0)

/-- Build a cost-matrix function from a row-major list of rows. -/
def ofList (l : List (List ℚ)) : Nat → Nat → ℚ :=
  fun r c => (l.getD r []).getD c 0

/-- Build a `double` cost-matrix function from a row-major list of rows. -/
def ofListFV (l : List (List FV)) : Nat → Nat → FV :=
  fun r c => (l.getD r []).getD c (.num 0)

/-- One update of the `h` scan of `step5`, at `ℚ` (the body of the inner
loop of the source). -/
def qstep (h v : ℚ) : ℚ :=
  if (qops.gt h v && !qops.beq v qops.zero) || qops.beq h qops.zero then v else h

/-- The uncovered entries of the working matrix, in the row-major order of
the `step5` scan. -/
def uncovVals (s : St ℚ) : List ℚ :=
  ((List.range s.n).filter fun r => !s.row_mask_ r).flatMap fun r =>
    ((List.range s.n).filter fun c => !s.col_mask_ c).map fun c => s.matrix_ r c

/-- A one-cell engine state (uncovered entry `5`), used as a witness. -/
def c6st : St ℚ where
  n := 1
  matrix_ := fun _ _ => 5
  mask_ := fun _ _ => NORMAL
  row_mask_ := fun _ => false
  col_mask_ := fun _ => false
  saverow_ := 0
  savecol_ := 0

/-- Two engine states that agree on every field except the saved-zero
registers `saverow_`, `savecol_`. -/
def Req {α : Type} (s t : St α) : Prop :=
  s.n = t.n ∧ s.matrix_ = t.matrix_ ∧ s.mask_ = t.mask_ ∧
    s.row_mask_ = t.row_mask_ ∧ s.col_mask_ = t.col_mask_

/-- The all-NaN 1×1 cost matrix. -/
def nanMat : Nat → Nat → FV := fun _ _ => .nan

/-- The engine state the all-NaN 1×1 matrix produces after preprocessing:
every cell NaN, empty mask, nothing covered. -/
def nanSt : St FV where
  n := 1
  matrix_ := fun _ _ => .nan
  mask_ := fun _ _ => NORMAL
  row_mask_ := fun _ => false
  col_mask_ := fun _ => false
  saverow_ := 0
  savecol_ := 0

/-- The engine state `solve` builds from the 1×1 NaN matrix (reductions
applied to the all-NaN working matrix). -/
def nanInit : St FV where
  n := 1
  matrix_ := fvColReduce 1 (fvRowReduce 1 nanMat)
  mask_ := fun _ _ => NORMAL
  row_mask_ := fun _ => false
  col_mask_ := fun _ => false
  saverow_ := 0
  savecol_ := 0

/-- The C1 counterexample matrix `[[+inf, 0], [0, 0]]`. -/
def c1A : Nat → Nat → FV := ofListFV [[.pinf, .num 0], [.num 0, .num 0]]

/-- The output of the infinity-replacement stage on `c1A`. -/
def c1B : Nat → Nat → FV :=
  fun r c => if r < 2 ∧ c < 2 ∧ fvIsFinite (c1A r c) = false then .num 0 else c1A r c

/-- Number of covered rows. -/
def covRowCount (s : St ℚ) : Nat :=
  ((List.range s.n).filter fun r => s.row_mask_ r).length

/-- The in-phase invariant of the engine, holding whenever control is at
step 3 or step 5 (after `step2` covered the starred columns): the cover
pattern of stars and primes, the star count bound, what covered rows and
columns contain, and a coverage-order certificate `T` (rows covered later
have larger `T`; a prime sharing its column with a star was created after
that star's row was covered). -/
structure PhaseInv (s : St ℚ) : Prop where
  star_pat : ∀ r c, r < s.n → c < s.n → s.mask_ r c = STAR →
    (s.row_mask_ r = true ∧ s.col_mask_ c = false) ∨
      (s.row_mask_ r = false ∧ s.col_mask_ c = true)
  prime_cov : ∀ r c, r < s.n → c < s.n → s.mask_ r c = PRIME →
    s.row_mask_ r = true ∧ s.col_mask_ c = false
  sc_lt : starCount s.n s.mask_ < s.n
  covrow_star : ∀ r, r < s.n → s.row_mask_ r = true → ∃ c, c < s.n ∧ s.mask_ r c = STAR
  covrow_prime : ∀ r, r < s.n → s.row_mask_ r = true → ∃ c, c < s.n ∧ s.mask_ r c = PRIME
  covcol_star : ∀ c, c < s.n → s.col_mask_ c = true → ∃ r, r < s.n ∧ s.mask_ r c = STAR
  time : ∃ T : Nat → Nat, ∀ x m c, x < s.n → m < s.n → c < s.n →
    s.row_mask_ x = true → s.row_mask_ m = true →
    s.mask_ x c = PRIME → s.mask_ m c = STAR → T m < T x

/-- The invariant at entry to `step4`: the phase facts, except that the
just-primed uncovered zero `Z0` (recorded in the saved registers) sits in an
uncovered row containing no star. -/
structure Inv4 (s : St ℚ) : Prop where
  star_pat : ∀ r c, r < s.n → c < s.n → s.mask_ r c = STAR →
    (s.row_mask_ r = true ∧ s.col_mask_ c = false) ∨
      (s.row_mask_ r = false ∧ s.col_mask_ c = true)
  prime_cov : ∀ r c, r < s.n → c < s.n → s.mask_ r c = PRIME →
    ¬(r = s.saverow_ ∧ c = s.savecol_) → s.row_mask_ r = true ∧ s.col_mask_ c = false
  sc_lt : starCount s.n s.mask_ < s.n
  covrow_star : ∀ r, r < s.n → s.row_mask_ r = true → ∃ c, c < s.n ∧ s.mask_ r c = STAR
  covrow_prime : ∀ r, r < s.n → s.row_mask_ r = true → ∃ c, c < s.n ∧ s.mask_ r c = PRIME
  time : ∃ T : Nat → Nat, ∀ x m c, x < s.n → m < s.n → c < s.n →
    s.row_mask_ x = true → s.row_mask_ m = true →
    s.mask_ x c = PRIME → s.mask_ m c = STAR → T m < T x
  z0_prime : s.mask_ s.saverow_ s.savecol_ = PRIME
  z0_row : s.row_mask_ s.saverow_ = false
  z0_col : s.col_mask_ s.savecol_ = false
  z0_rlt : s.saverow_ < s.n
  z0_clt : s.savecol_ < s.n
  z0_nostar : ∀ c, s.mask_ s.saverow_ c ≠ STAR

/-- The master invariant of the step machine, relative to the padded cost
matrix `P`: mark uniqueness, marks at zeros, non-negativity, the dual
representation `matrix_ = P - u - v`, and the step-dependent phase facts. -/
structure Inv (P : Nat → Nat → ℚ) (k : Nat) (s : St ℚ) : Prop where
  star_row : ∀ r c c', s.mask_ r c = STAR → s.mask_ r c' = STAR → c = c'
  star_col : ∀ r r' c, s.mask_ r c = STAR → s.mask_ r' c = STAR → r = r'
  prime_row : ∀ r c c', s.mask_ r c = PRIME → s.mask_ r c' = PRIME → c = c'
  mark_range : ∀ r c, s.mask_ r c ≠ NORMAL → r < s.n ∧ c < s.n
  mark_zero : ∀ r c, s.mask_ r c ≠ NORMAL → s.matrix_ r c = 0
  nonneg : ∀ r c, r < s.n → c < s.n → 0 ≤ s.matrix_ r c
  cover_row_range : ∀ r, s.row_mask_ r = true → r < s.n
  cover_col_range : ∀ c, s.col_mask_ c = true → c < s.n
  dual : ∃ u v : Nat → ℚ, ∀ r c, r < s.n → c < s.n → s.matrix_ r c = P r c - u r - v c
  k_le : k ≤ 5
  k1 : k = 1 → (∀ r c, s.mask_ r c = NORMAL) ∧ (∀ r, s.row_mask_ r = false) ∧
    (∀ c, s.col_mask_ c = false)
  k2 : k = 2 → (∀ r, s.row_mask_ r = false) ∧ (∀ c, s.col_mask_ c = false) ∧
    (∀ r c, s.mask_ r c ≠ PRIME)
  k35 : k = 3 ∨ k = 5 → PhaseInv s
  k4 : k = 4 → Inv4 s
  k5 : k = 5 → ∀ r c, r < s.n → c < s.n → s.row_mask_ r = false → s.col_mask_ c = false →
    s.matrix_ r c ≠ 0
  k0 : k = 0 → s.n ≤ starCount s.n s.mask_

/-! ## Lemmas about the comparison scans and the reductions -/

theorem foldl_min_le (a : ℚ) : ∀ l : List ℚ, l.foldl min a ≤ a
  | [] => le_refl a
  | x :: xs => le_trans (foldl_min_le (min a x) xs) (min_le_left a x)

theorem foldl_min_le_mem {x : ℚ} : ∀ (l : List ℚ) (a : ℚ), x ∈ l → l.foldl min a ≤ x
  | y :: ys, a, h => by
    rcases List.mem_cons.mp h with h | h
    · subst h
      exact le_trans (foldl_min_le (min a x) ys) (min_le_right a x)
    · exact foldl_min_le_mem ys (min a y) h

theorem foldl_min_mem : ∀ (l : List ℚ) (a : ℚ), l.foldl min a = a ∨ l.foldl min a ∈ l
  | [], _ => Or.inl rfl
  | x :: xs, a => by
    rcases foldl_min_mem xs (min a x) with h | h
    · rcases min_choice a x with hm | hm
      · exact Or.inl (h.trans hm)
      · exact Or.inr (List.mem_cons.mpr (Or.inl (h.trans hm)))
    · exact Or.inr (List.mem_cons.mpr (Or.inr h))

theorem listMin_le {l : List ℚ} {x : ℚ} (hx : x ∈ l) : listMin l ≤ x := by
  cases l with
  | nil => exact absurd hx (List.not_mem_nil x)
  | cons y ys =>
    rcases List.mem_cons.mp hx with h | h
    · exact h ▸ foldl_min_le y ys
    · exact foldl_min_le_mem ys y h

theorem listMin_mem {l : List ℚ} (h : l ≠ []) : listMin l ∈ l := by
  cases l with
  | nil => exact absurd rfl h
  | cons y ys =>
    rcases foldl_min_mem ys y with hm | hm
    · exact List.mem_cons.mpr (Or.inl hm)
    · exact List.mem_cons.mpr (Or.inr hm)

theorem rowmin_le {n : Nat} (A : Nat → Nat → ℚ) {r c : Nat} (hc : c < n) :
    rowmin n A r ≤ A r c :=
  listMin_le (List.mem_map_of_mem _ (List.mem_range.mpr hc))

theorem rowmin_exists {n : Nat} (A : Nat → Nat → ℚ) (r : Nat) (hn : 0 < n) :
    ∃ c, c < n ∧ A r c = rowmin n A r := by
  have hne : ((List.range n).map fun c => A r c) ≠ [] := by
    simp [List.map_eq_nil_iff, List.range_eq_nil]
    omega
  rcases List.mem_map.mp (listMin_mem hne) with ⟨c, hc, hval⟩
  exact ⟨c, List.mem_range.mp hc, hval⟩

theorem colmin_le {n : Nat} (A : Nat → Nat → ℚ) {r c : Nat} (hr : r < n) :
    colmin n A c ≤ A r c :=
  listMin_le (List.mem_map_of_mem _ (List.mem_range.mpr hr))

theorem colmin_exists {n : Nat} (A : Nat → Nat → ℚ) (c : Nat) (hn : 0 < n) :
    ∃ r, r < n ∧ A r c = colmin n A c := by
  have hne : ((List.range n).map fun r => A r c) ≠ [] := by
    simp [List.map_eq_nil_iff, List.range_eq_nil]
    omega
  rcases List.mem_map.mp (listMin_mem hne) with ⟨r, hr, hval⟩
  exact ⟨r, List.mem_range.mp hr, hval⟩

theorem rowReduce_nonneg {n : Nat} (A : Nat → Nat → ℚ) {r c : Nat} (hc : c < n) :
    0 ≤ rowReduce n A r c :=
  sub_nonneg.mpr (rowmin_le A hc)

theorem colReduce_nonneg {n : Nat} (A : Nat → Nat → ℚ) {r c : Nat} (hr : r < n) :
    0 ≤ colReduce n A r c :=
  sub_nonneg.mpr (colmin_le A hr)

theorem rowReduce_zero {n : Nat} (A : Nat → Nat → ℚ) (r : Nat) (hn : 0 < n) :
    ∃ c, c < n ∧ rowReduce n A r c = 0 := by
  rcases rowmin_exists A r hn with ⟨c, hc, hval⟩
  exact ⟨c, hc, by simp [rowReduce, hval]⟩

theorem colReduce_zero {n : Nat} (A : Nat → Nat → ℚ) (c : Nat) (hn : 0 < n) :
    ∃ r, r < n ∧ colReduce n A r c = 0 := by
  rcases colmin_exists A c hn with ⟨r, hr, hval⟩
  exact ⟨r, hr, by simp [colReduce, hval]⟩

/-- **C7** (amended): the row reduction and the column reduction do *not*
commute in general (see `claim_C7_cex`); what holds — and what the
surrounding spec text "order matters only for reproducibility, not
correctness" needs — is that either order produces a matrix with a zero in
every row and a zero in every column. -/
theorem claim_C7 (n : Nat) (A : Nat → Nat → ℚ) (hn : 0 < n) :
    (∀ r, r < n → ∃ c, c < n ∧ colReduce n (rowReduce n A) r c = 0) ∧
    (∀ c, c < n → ∃ r, r < n ∧ colReduce n (rowReduce n A) r c = 0) ∧
    (∀ r, r < n → ∃ c, c < n ∧ rowReduce n (colReduce n A) r c = 0) ∧
    (∀ c, c < n → ∃ r, r < n ∧ rowReduce n (colReduce n A) r c = 0) := by
  refine ⟨?_, ?_, ?_, ?_⟩
  · intro r hr
    rcases rowReduce_zero A r hn with ⟨c, hc, hz⟩
    refine ⟨c, hc, ?_⟩
    have hmin : colmin n (rowReduce n A) c = 0 := by
      have hle : colmin n (rowReduce n A) c ≤ 0 := hz ▸ colmin_le (rowReduce n A) hr
      have hge : 0 ≤ colmin n (rowReduce n A) c := by
        rcases colmin_exists (rowReduce n A) c hn with ⟨r', _, hval⟩
        exact hval ▸ rowReduce_nonneg A hc
      exact le_antisymm hle hge
    simp [colReduce, hmin, hz]
  · intro c _
    exact colReduce_zero (rowReduce n A) c hn
  · intro r _
    exact rowReduce_zero (colReduce n A) r hn
  · intro c hc
    rcases colReduce_zero A c hn with ⟨r, hr, hz⟩
    refine ⟨r, hr, ?_⟩
    have hmin : rowmin n (colReduce n A) r = 0 := by
      have hle : rowmin n (colReduce n A) r ≤ 0 := hz ▸ rowmin_le (colReduce n A) hc
      have hge : 0 ≤ rowmin n (colReduce n A) r := by
        rcases rowmin_exists (colReduce n A) r hn with ⟨c', _, hval⟩
        exact hval ▸ colReduce_nonneg A hr
      exact le_antisymm hle hge
    simp [rowReduce, hmin, hz]

/-- **C7** counterexample: on the square, finite, non-negative matrix
`[[1,1],[1,0]]` the two reduction orders give different matrices (entry
`(0,1)` is `0` one way and `1` the other), so the claimed commutation is
false. -/
theorem claim_C7_cex :
    colReduce 2 (rowReduce 2 (ofList [[1, 1], [1, 0]])) 0 1 ≠
      rowReduce 2 (colReduce 2 (ofList [[1, 1], [1, 0]])) 0 1 := by
  with_unfolding_all decide

/-- Witness for `claim_C7` at `n = 2`, `A = [[1,2],[3,4]]`. -/
theorem claim_C7_witness :
    (∀ r, r < 2 → ∃ c, c < 2 ∧
        colReduce 2 (rowReduce 2 (ofList [[1, 2], [3, 4]])) r c = 0) ∧
    (∀ c, c < 2 → ∃ r, r < 2 ∧
        colReduce 2 (rowReduce 2 (ofList [[1, 2], [3, 4]])) r c = 0) ∧
    (∀ r, r < 2 → ∃ c, c < 2 ∧
        rowReduce 2 (colReduce 2 (ofList [[1, 2], [3, 4]])) r c = 0) ∧
    (∀ c, c < 2 → ∃ r, r < 2 ∧
        rowReduce 2 (colReduce 2 (ofList [[1, 2], [3, 4]])) r c = 0) :=
  claim_C7 2 (ofList [[1, 2], [3, 4]]) (by decide)

/-! ## The `step5` adjustment (claim C6) -/

theorem foldl_guard {α β : Type} (p : β → Bool) (f : α → β → α) :
    ∀ (l : List β) (a : α),
      l.foldl (fun acc x => if p x then acc else f acc x) a
        = (l.filter fun x => !p x).foldl f a
  | [], _ => rfl
  | x :: xs, a => by
    by_cases hp : p x <;>
      simp [hp, List.filter_cons, foldl_guard p f xs]

theorem qstep_def (h v : ℚ) :
    (if (qops.gt h v && !qops.beq v qops.zero) || qops.beq h qops.zero then v else h)
      = qstep h v := rfl

theorem step5h_eq_foldl (s : St ℚ) : step5h qops s = (uncovVals s).foldl qstep 0 := by
  have inner : ∀ (h : ℚ) (r : Nat),
      (List.range s.n).foldl (fun h c => if s.col_mask_ c then h
          else if (qops.gt h (s.matrix_ r c) && !qops.beq (s.matrix_ r c) qops.zero)
              || qops.beq h qops.zero then s.matrix_ r c else h) h
        = (((List.range s.n).filter fun c => !s.col_mask_ c).map fun c => s.matrix_ r c).foldl
            qstep h := by
    intro h r
    simp only [qstep_def]
    rw [foldl_guard s.col_mask_ (fun h c => qstep h (s.matrix_ r c)), List.foldl_map]
  unfold step5h
  simp only [inner]
  rw [foldl_guard s.row_mask_
      (fun h r => (((List.range s.n).filter fun c => !s.col_mask_ c).map
        fun c => s.matrix_ r c).foldl qstep h)]
  rw [uncovVals, List.flatMap, List.foldl_flatten, List.foldl_map]
  rfl

theorem qstep_eq (h v : ℚ) :
    qstep h v = if (v < h ∧ ¬v = 0) ∨ h = 0 then v else h := by
  unfold qstep qops
  simp only [← decide_not, ← Bool.decide_and, ← Bool.decide_or, decide_eq_true_eq]

theorem qstep_eq_min {h v : ℚ} (hh : h ≠ 0) (hv : v ≠ 0) : qstep h v = min h v := by
  rw [qstep_eq]
  rcases lt_or_ge v h with hlt | hge
  · rw [if_pos (Or.inl ⟨hlt, hv⟩)]
    exact (min_eq_right (le_of_lt hlt)).symm
  · rw [if_neg]
    · exact (min_eq_left hge).symm
    · rintro (⟨hlt, -⟩ | hz)
      · exact absurd hlt (not_lt_of_ge hge)
      · exact hh hz

theorem qstep_zero (v : ℚ) : qstep 0 v = v := by
  unfold qstep
  simp [qops]

theorem foldl_qstep_nonzero :
    ∀ (l : List ℚ) (a : ℚ), a ≠ 0 → (∀ v ∈ l, v ≠ 0) → l.foldl qstep a = l.foldl min a
  | [], _, _, _ => rfl
  | v :: vs, a, ha, hl => by
    have hv : v ≠ 0 := hl v (List.mem_cons_self v vs)
    have hmin : min a v ≠ 0 := by
      rcases min_choice a v with hm | hm <;> rw [hm]
      · exact ha
      · exact hv
    rw [List.foldl_cons, List.foldl_cons, qstep_eq_min ha hv,
      foldl_qstep_nonzero vs (min a v) hmin (fun w hw => hl w (List.mem_cons_of_mem v hw))]

theorem foldl_qstep_listMin {l : List ℚ} (hne : l ≠ []) (hl : ∀ v ∈ l, v ≠ 0) :
    l.foldl qstep 0 = listMin l := by
  cases l with
  | nil => exact absurd rfl hne
  | cons v vs =>
    rw [List.foldl_cons, qstep_zero,
      foldl_qstep_nonzero vs v (hl v (List.mem_cons_self v vs))
        (fun w hw => hl w (List.mem_cons_of_mem v hw))]
    rfl

theorem mem_uncovVals {s : St ℚ} {v : ℚ} :
    v ∈ uncovVals s ↔
      ∃ r c, r < s.n ∧ c < s.n ∧ s.row_mask_ r = false ∧ s.col_mask_ c = false ∧
        s.matrix_ r c = v := by
  simp only [uncovVals, List.mem_flatMap, List.mem_map, List.mem_filter, List.mem_range,
    Bool.not_eq_true']
  constructor
  · rintro ⟨r, ⟨hr, hrm⟩, c, ⟨hc, hcm⟩, hv⟩
    exact ⟨r, c, hr, hc, hrm, hcm, hv⟩
  · rintro ⟨r, c, hr, hc, hrm, hcm, hv⟩
    exact ⟨r, ⟨hr, hrm⟩, c, ⟨hc, hcm⟩, hv⟩

/-- **C6** (confirmed): when `step5` runs with at least one uncovered cell
and no uncovered zero (the state in which `step3` hands control to `step5`),
the `h` it computes is exactly the minimum over all uncovered cells, and the
update adds `h` to every covered row and subtracts `h` from every uncovered
column: cell `(r, c)` becomes
`old + (covered row ? h : 0) - (uncovered column ? h : 0)` (hence covered
row & covered column cells change by `+h`, covered row & uncovered column
and uncovered row & covered column cells by `0`).  `step5` then returns `3`. -/
theorem claim_C6 (s : St ℚ)
    (hex : ∃ r c, r < s.n ∧ c < s.n ∧ s.row_mask_ r = false ∧ s.col_mask_ c = false)
    (hnz : ∀ r c, r < s.n → c < s.n → s.row_mask_ r = false → s.col_mask_ c = false →
      s.matrix_ r c ≠ 0) :
    (step5 qops s).1 = 3 ∧
    (∃ r c, r < s.n ∧ c < s.n ∧ s.row_mask_ r = false ∧ s.col_mask_ c = false ∧
      s.matrix_ r c = step5h qops s) ∧
    (∀ r c, r < s.n → c < s.n → s.row_mask_ r = false → s.col_mask_ c = false →
      step5h qops s ≤ s.matrix_ r c) ∧
    (∀ r c, r < s.n → c < s.n →
      (step5 qops s).2.matrix_ r c
        = s.matrix_ r c + (if s.row_mask_ r then step5h qops s else 0)
            - (if s.col_mask_ c then 0 else step5h qops s)) := by
  have hvals : ∀ v ∈ uncovVals s, v ≠ 0 := by
    intro v hv
    rcases mem_uncovVals.mp hv with ⟨r, c, hr, hc, hrm, hcm, hval⟩
    exact hval ▸ hnz r c hr hc hrm hcm
  have hne : uncovVals s ≠ [] := by
    rcases hex with ⟨r, c, hr, hc, hrm, hcm⟩
    exact List.ne_nil_of_mem (mem_uncovVals.mpr ⟨r, c, hr, hc, hrm, hcm, rfl⟩)
  have hmin : step5h qops s = listMin (uncovVals s) :=
    (step5h_eq_foldl s).trans (foldl_qstep_listMin hne hvals)
  refine ⟨rfl, ?_, ?_, ?_⟩
  · rcases mem_uncovVals.mp (hmin ▸ listMin_mem hne) with ⟨r, c, hr, hc, hrm, hcm, hval⟩
    exact ⟨r, c, hr, hc, hrm, hcm, hval⟩
  · intro r c hr hc hrm hcm
    exact hmin ▸ listMin_le (mem_uncovVals.mpr ⟨r, c, hr, hc, hrm, hcm, rfl⟩)
  · intro r c hr hc
    show (if !s.col_mask_ c && decide (c < s.n) && decide (r < s.n) then
        qops.sub (if s.row_mask_ r && decide (r < s.n) && decide (c < s.n) then
            qops.add (s.matrix_ r c) (step5h qops s) else s.matrix_ r c) (step5h qops s)
      else (if s.row_mask_ r && decide (r < s.n) && decide (c < s.n) then
            qops.add (s.matrix_ r c) (step5h qops s) else s.matrix_ r c))
      = s.matrix_ r c + (if s.row_mask_ r then step5h qops s else 0)
          - (if s.col_mask_ c then 0 else step5h qops s)
    cases hrm : s.row_mask_ r <;> cases hcm : s.col_mask_ c <;>
      simp [hr, hc, qops]

/-- Witness for `claim_C6` on the one-cell state `c6st` (single uncovered
entry `5`). -/
theorem claim_C6_witness :
    (step5 qops c6st).1 = 3 ∧
    (∃ r c, r < c6st.n ∧ c < c6st.n ∧ c6st.row_mask_ r = false ∧ c6st.col_mask_ c = false ∧
      c6st.matrix_ r c = step5h qops c6st) ∧
    (∀ r c, r < c6st.n → c < c6st.n → c6st.row_mask_ r = false → c6st.col_mask_ c = false →
      step5h qops c6st ≤ c6st.matrix_ r c) ∧
    (∀ r c, r < c6st.n → c < c6st.n →
      (step5 qops c6st).2.matrix_ r c
        = c6st.matrix_ r c + (if c6st.row_mask_ r then step5h qops c6st else 0)
            - (if c6st.col_mask_ c then 0 else step5h qops c6st)) :=
  claim_C6 c6st ⟨0, 0, by decide, by decide, rfl, rfl⟩
    (fun r c _ _ _ _ => by norm_num [c6st])

/-! ## Saved-register independence (claim C9) -/

theorem step1_req {α : Type} (ops : Ops α) {s t : St α} (h : Req s t) :
    (step1 ops s).1 = (step1 ops t).1 ∧ Req (step1 ops s).2 (step1 ops t).2 := by
  obtain ⟨hn, hA, hm, hr, hc⟩ := h
  exact ⟨rfl, by simp [step1, Req, hn, hA, hm, hr, hc]⟩

theorem step2_req {α : Type} {s t : St α} (h : Req s t) :
    (step2 s).1 = (step2 t).1 ∧ Req (step2 s).2 (step2 t).2 := by
  obtain ⟨hn, hA, hm, hr, hc⟩ := h
  unfold step2
  rw [hn, hm]
  by_cases hcc : t.n ≤ starCount t.n t.mask_ <;>
    simp [hcc, Req, hn, hA, hm, hr, hc]

theorem step3_req {α : Type} (ops : Ops α) {s t : St α} (h : Req s t) :
    (step3 ops s).1 = (step3 ops t).1 ∧ Req (step3 ops s).2 (step3 ops t).2 ∧
      ((step3 ops s).1 = 4 →
        (step3 ops s).2.saverow_ = (step3 ops t).2.saverow_ ∧
          (step3 ops s).2.savecol_ = (step3 ops t).2.savecol_) := by
  obtain ⟨hn, hA, hm, hr, hc⟩ := h
  have hfind : find_uncovered ops ops.zero s = find_uncovered ops ops.zero t := by
    simp [find_uncovered, hn, hA, hr, hc]
  rcases hopt : find_uncovered ops ops.zero t with _ | ⟨r, c⟩
  · simp [step3, hfind, hopt, Req, hn, hA, hm, hr, hc]
  · have hstar : (List.range s.n).find? (fun col => upd2 s.mask_ r c PRIME r col == STAR)
        = (List.range t.n).find? (fun col => upd2 t.mask_ r c PRIME r col == STAR) := by
      rw [hn, hm]
    rcases hst : (List.range t.n).find? (fun col => upd2 t.mask_ r c PRIME r col == STAR)
      with _ | c2
    · simp [step3, hfind, hopt, hstar, hst, Req, hn, hA, hm, hr, hc]
    · simp [step3, hfind, hopt, hstar, hst, Req, hn, hA, hm, hr, hc]

theorem step4_eqOut {α : Type} {s t : St α} (h : Req s t)
    (hsr : s.saverow_ = t.saverow_) (hsc : s.savecol_ = t.savecol_) :
    (step4 s).1 = (step4 t).1 ∧ Req (step4 s).2 (step4 t).2 := by
  obtain ⟨hn, hA, hm, hr, hc⟩ := h
  exact ⟨rfl, by simp [step4, Req, hn, hA, hm, hsr, hsc]⟩

theorem step5_req {α : Type} (ops : Ops α) {s t : St α} (h : Req s t) :
    (step5 ops s).1 = (step5 ops t).1 ∧ Req (step5 ops s).2 (step5 ops t).2 := by
  obtain ⟨hn, hA, hm, hr, hc⟩ := h
  refine ⟨rfl, ?_⟩
  have hh : step5h ops s = step5h ops t := by
    simp [step5h, hn, hA, hr, hc]
  simp [step5, Req, hn, hA, hm, hr, hc, hh]

theorem step2_fst {α : Type} (s : St α) : (step2 s).1 = 0 ∨ (step2 s).1 = 3 := by
  unfold step2
  split <;> simp

theorem step3_fst {α : Type} (ops : Ops α) (s : St α) :
    (step3 ops s).1 = 3 ∨ (step3 ops s).1 = 4 ∨ (step3 ops s).1 = 5 := by
  unfold step3
  split
  · simp
  · dsimp only
    split <;> simp

theorem stepOnce_req {α : Type} (ops : Ops α) (k : Nat) {s t : St α} (h : Req s t)
    (h4 : k = 4 → s.saverow_ = t.saverow_ ∧ s.savecol_ = t.savecol_) :
    (stepOnce ops (k, s)).1 = (stepOnce ops (k, t)).1 ∧
      Req (stepOnce ops (k, s)).2 (stepOnce ops (k, t)).2 ∧
      ((stepOnce ops (k, s)).1 = 4 →
        (stepOnce ops (k, s)).2.saverow_ = (stepOnce ops (k, t)).2.saverow_ ∧
          (stepOnce ops (k, s)).2.savecol_ = (stepOnce ops (k, t)).2.savecol_) := by
  match k with
  | 1 =>
    have es : stepOnce ops (1, s) = step1 ops s := rfl
    have et : stepOnce ops (1, t) = step1 ops t := rfl
    rw [es, et]
    rcases step1_req ops h with ⟨h1, h2⟩
    have hfs : (step1 ops s).1 = 2 := rfl
    exact ⟨h1, h2, fun hk => absurd (hfs ▸ hk) (by decide)⟩
  | 2 =>
    have es : stepOnce ops (2, s) = step2 s := rfl
    have et : stepOnce ops (2, t) = step2 t := rfl
    rw [es, et]
    rcases step2_req h with ⟨h1, h2⟩
    refine ⟨h1, h2, fun hk => ?_⟩
    rcases step2_fst s with hf | hf <;> rw [hf] at hk <;> exact absurd hk (by decide)
  | 3 =>
    have es : stepOnce ops (3, s) = step3 ops s := rfl
    have et : stepOnce ops (3, t) = step3 ops t := rfl
    rw [es, et]
    exact step3_req ops h
  | 4 =>
    have es : stepOnce ops (4, s) = step4 s := rfl
    have et : stepOnce ops (4, t) = step4 t := rfl
    rw [es, et]
    rcases step4_eqOut h (h4 rfl).1 (h4 rfl).2 with ⟨h1, h2⟩
    have hfs : (step4 s).1 = 2 := rfl
    exact ⟨h1, h2, fun hk => absurd (hfs ▸ hk) (by decide)⟩
  | 5 =>
    have es : stepOnce ops (5, s) = step5 ops s := rfl
    have et : stepOnce ops (5, t) = step5 ops t := rfl
    rw [es, et]
    rcases step5_req ops h with ⟨h1, h2⟩
    have hfs : (step5 ops s).1 = 3 := rfl
    exact ⟨h1, h2, fun hk => absurd (hfs ▸ hk) (by decide)⟩
  | 0 =>
    have es : stepOnce ops (0, s) = (0, s) := rfl
    have et : stepOnce ops (0, t) = (0, t) := rfl
    rw [es, et]
    have hfs : ((0, s) : Nat × St α).1 = 0 := rfl
    exact ⟨rfl, h, fun hk => absurd (hfs ▸ hk) (by decide)⟩
  | (m + 6) =>
    have es : stepOnce ops (m + 6, s) = (m + 6, s) := rfl
    have et : stepOnce ops (m + 6, t) = (m + 6, t) := rfl
    rw [es, et]
    have hfs : ((m + 6, s) : Nat × St α).1 = m + 6 := rfl
    exact ⟨rfl, h, fun hk => absurd (hfs ▸ hk) (by omega)⟩

theorem runMachine_req {α : Type} (ops : Ops α) :
    ∀ (fuel k : Nat) {s t : St α}, Req s t →
      (k = 4 → s.saverow_ = t.saverow_ ∧ s.savecol_ = t.savecol_) →
      (runMachine ops fuel (k, s) = none ∧ runMachine ops fuel (k, t) = none) ∨
        (∃ u v, runMachine ops fuel (k, s) = some u ∧ runMachine ops fuel (k, t) = some v ∧
          Req u v) := by
  intro fuel
  induction fuel with
  | zero =>
    intro k s t h h4
    match k with
    | 0 => exact Or.inr ⟨s, t, rfl, rfl, h⟩
    | (m + 1) => exact Or.inl ⟨rfl, rfl⟩
  | succ f ih =>
    intro k s t h h4
    match k with
    | 0 => exact Or.inr ⟨s, t, rfl, rfl, h⟩
    | (m + 1) =>
      rcases stepOnce_req ops (m + 1) h h4 with ⟨h1, h2, h3⟩
      have hs : runMachine ops (f + 1) (m + 1, s)
          = runMachine ops f (stepOnce ops (m + 1, s)) := rfl
      have ht : runMachine ops (f + 1) (m + 1, t)
          = runMachine ops f (stepOnce ops (m + 1, t)) := rfl
      rw [hs, ht]
      rcases ih ((stepOnce ops (m + 1, s)).1) h2 (fun hk => h3 hk) with
        ⟨ha, hb⟩ | ⟨u, v, hu, hv, huv⟩
      · left
        refine ⟨ha, ?_⟩
        rw [h1] at hb
        exact hb
      · right
        refine ⟨u, v, hu, ?_, huv⟩
        rw [h1] at hv
        exact hv

/-- **C9** (confirmed): the value `solve` returns depends only on the input
matrix.  The only `munkres` object state that survives into a new `solve`
call uninitialised is the saved-zero register pair (`matrix_`, `mask_`,
`row_mask_`, `col_mask_` are all overwritten before the step loop), and the
returned sequence is the same for any two register states, e.g. a fresh
object and one holding the registers of a completed earlier call. -/
theorem claim_C9 (sr sc sr2 sc2 fuel R C : Nat) (A : Nat → Nat → ℚ) :
    solveWith sr sc fuel R C A = solveWith sr2 sc2 fuel R C A := by
  have h : Req (initSt R C A sr sc) (initSt R C A sr2 sc2) :=
    ⟨rfl, rfl, rfl, rfl, rfl⟩
  rcases runMachine_req qops fuel 1 h (by intro hk; exact absurd hk (by decide)) with
    ⟨ha, hb⟩ | ⟨u, v, hu, hv, huv⟩
  · simp [solveWith, ha, hb]
  · simp [solveWith, hu, hv, huv.2.2.1]

/-! ## The preprocessing at `double`: claims C3, C10, and the C1
counterexample -/

theorem st_ext {α : Type} {s t : St α} (hn : s.n = t.n) (hA : s.matrix_ = t.matrix_)
    (hm : s.mask_ = t.mask_) (hr : s.row_mask_ = t.row_mask_) (hc : s.col_mask_ = t.col_mask_)
    (hsr : s.saverow_ = t.saverow_) (hsc : s.savecol_ = t.savecol_) : s = t := by
  cases s; cases t; simp_all

theorem mem_fvCells {R C : Nat} {A : Nat → Nat → FV} {v : FV} :
    v ∈ fvCells R C A ↔ ∃ c, c < C ∧ ∃ r, r < R ∧ A r c = v := by
  simp [fvCells, List.mem_flatMap, List.mem_map, List.mem_range]

theorem foldl_max_mem : ∀ (l : List FV) (a : FV),
    l.foldl (fun m v => if fvGt v m then v else m) a = a ∨
      l.foldl (fun m v => if fvGt v m then v else m) a ∈ l
  | [], _ => Or.inl rfl
  | x :: xs, a => by
    by_cases hx : fvGt x a
    · rcases foldl_max_mem xs x with h | h
      · exact Or.inr (List.mem_cons.mpr (Or.inl (by simpa [hx] using h)))
      · exact Or.inr (List.mem_cons.mpr (Or.inr (by simpa [hx] using h)))
    · rcases foldl_max_mem xs a with h | h
      · exact Or.inl (by simpa [hx] using h)
      · exact Or.inr (List.mem_cons.mpr (Or.inr (by simpa [hx] using h)))

theorem fvMaxScan_mem {l : List FV} {m : FV} (h : fvMaxScan l = some m) : m ∈ l := by
  cases l with
  | nil => exact Option.noConfusion h
  | cons x xs =>
    have hm : xs.foldl (fun m v => if fvGt v m then v else m) x = m := by
      simpa [fvMaxScan] using h
    rcases foldl_max_mem xs x with hh | hh
    · exact List.mem_cons.mpr (Or.inl (hm.symm.trans hh))
    · exact List.mem_cons.mpr (Or.inr (hm ▸ hh))

theorem foldl_max_pinf {l : List FV} (h : ∀ v ∈ l, v = .pinf) :
    l.foldl (fun m v => if fvGt v m then v else m) .pinf = .pinf := by
  induction l with
  | nil => rfl
  | cons x xs ih =>
    have hx : x = .pinf := h x (List.mem_cons_self x xs)
    subst hx
    simpa [fvGt] using ih fun v hv => h v (List.mem_cons_of_mem _ hv)

theorem fvMaxScan_all_pinf {l : List FV} (hne : l ≠ []) (h : ∀ v ∈ l, v = .pinf) :
    fvMaxScan l = some .pinf := by
  cases l with
  | nil => exact absurd rfl hne
  | cons x xs =>
    have hx : x = .pinf := h x (List.mem_cons_self x xs)
    subst hx
    simp [fvMaxScan, foldl_max_pinf fun v hv => h v (List.mem_cons_of_mem _ hv)]

theorem nan_step1 : stepOnce fops (1, nanSt) = (2, nanSt) := rfl

theorem nan_step2 : stepOnce fops (2, nanSt) = (3, nanSt) := by
  show step2 nanSt = (3, nanSt)
  unfold step2
  rw [if_neg (by decide)]
  refine congrArg (Prod.mk 3) (st_ext rfl rfl rfl rfl ?_ rfl rfl)
  funext c
  simp [nanSt, NORMAL, STAR]

theorem nan_step3 : stepOnce fops (3, nanSt) = (5, nanSt) := rfl

theorem nan_step5h : step5h fops nanSt = .nan := by with_unfolding_all rfl

theorem nan_step5 : stepOnce fops (5, nanSt) = (3, nanSt) := by
  show step5 fops nanSt = (3, nanSt)
  unfold step5
  refine congrArg (Prod.mk 3) (st_ext rfl ?_ rfl rfl rfl rfl rfl)
  funext r c
  simp only [nan_step5h]
  by_cases hr : r < 1 <;> by_cases hc : c < 1 <;>
    simp [nanSt, hr, hc, fops, fvSub, fvAdd]

theorem nan35 (f : Nat) :
    runMachine fops f (3, nanSt) = none ∧ runMachine fops f (5, nanSt) = none := by
  induction f with
  | zero => exact ⟨rfl, rfl⟩
  | succ f ih =>
    constructor
    · show runMachine fops f (stepOnce fops (3, nanSt)) = none
      rw [nan_step3]
      exact ih.2
    · show runMachine fops f (stepOnce fops (5, nanSt)) = none
      rw [nan_step5]
      exact ih.1

theorem nanRun : ∀ fuel, runMachine fops fuel (1, nanSt) = none
  | 0 => rfl
  | 1 => rfl
  | (f + 2) => by
    show runMachine fops (f + 1) (stepOnce fops (1, nanSt)) = none
    rw [nan_step1]
    show runMachine fops f (stepOnce fops (2, nanSt)) = none
    rw [nan_step2]
    exact (nan35 f).1

/-- **C10** (amended): the non-finite replacement is performed exactly when
the working matrix has an infinite entry (`has_inf()`, false for a matrix
whose only non-finite entries are NaN); when it is performed, every
non-finite cell (NaN as well as infinity) is overwritten by the maximum
finite cell and every finite cell is left unchanged; but a matrix containing
NaN and no infinity does *not* proceed through the whole algorithm: its NaN
entries enter the engine unreplaced and the step loop then never terminates
— on the 1×1 NaN matrix the engine cycles between step 3 and step 5 forever,
so `solve` returns no result under any iteration budget. -/
theorem claim_C10 :
    (∀ (n : Nat) (A : Nat → Nat → FV), (fvCells n n A).any fvIsInf = false →
      replaceStage n A = .ok A) ∧
    (∀ (n : Nat) (A B : Nat → Nat → FV), (fvCells n n A).any fvIsInf = true →
      replaceStage n A = .ok B →
      ∀ r c, r < n → c < n → fvIsFinite (B r c) = true ∧
        (fvIsFinite (A r c) = true → B r c = A r c)) ∧
    (∀ fuel, fvSolve fuel 1 1 nanMat = .ok none) := by
  refine ⟨?_, ?_, ?_⟩
  · intro n A h
    unfold replaceStage
    rw [if_neg (by simp [h])]
    rfl
  · intro n A B hinf hok r c hr hc
    unfold replaceStage at hok
    rw [if_pos hinf] at hok
    rcases hscan : fvMaxScan ((fvCells n n A).filter fvIsFinite) with _ | mx
    · rw [hscan] at hok
      exact Except.noConfusion hok
    · rw [hscan] at hok
      have hmx : fvIsFinite mx = true :=
        (List.mem_filter.mp (fvMaxScan_mem hscan)).2
      have hB : (fun r c =>
          if r < n ∧ c < n ∧ fvIsFinite (A r c) = false then mx else A r c) = B :=
        Except.ok.inj hok
      by_cases hf : fvIsFinite (A r c) = true
    -- finite cell: untouched
      · have : B r c = A r c := by
          rw [← hB]
          simp [hf]
        exact ⟨this ▸ hf, fun _ => this⟩
    -- non-finite cell: replaced by the finite maximum
      · have : B r c = mx := by
          rw [← hB]
          simp [hr, hc, Bool.eq_false_iff.mpr hf]
        exact ⟨this ▸ hmx, fun hff => absurd hff hf⟩
  · intro fuel
    have hform : fvSolve fuel 1 1 nanMat
        = .ok ((runMachine fops fuel (1, nanInit)).map fun s => extract 1 1 s.mask_) := rfl
    have hst : nanInit = nanSt :=
      st_ext rfl (by funext r c; rfl) rfl rfl rfl rfl rfl
    rw [hform, hst, nanRun fuel]
    rfl

/-- **C10** counterexample: the 1×1 matrix `[[NaN]]` (NaN present, no
infinity) does not proceed through the whole algorithm — with an iteration
budget of 100 steps the engine never reaches DONE, and the cycle
`step3 → step5 → step3` leaves the state unchanged, so no budget suffices
(see `claim_C10`). -/
theorem claim_C10_cex :
    fvSolve 100 1 1 nanMat = .ok none ∧
      stepOnce fops (3, nanSt) = (5, nanSt) ∧ stepOnce fops (5, nanSt) = (3, nanSt) :=
  ⟨by with_unfolding_all rfl, nan_step3, nan_step5⟩

/-- Witness for `claim_C10`: the replacement stage applied to the all-NaN
1×1 matrix (no infinity: untouched), to the C1 matrix `[[+inf,0],[0,0]]`
(infinity present: non-finite cells replaced), and the NaN run at budget 7. -/
theorem claim_C10_witness :
    replaceStage 1 nanMat = .ok nanMat ∧
    (∀ r c, r < 2 → c < 2 → fvIsFinite (c1B r c) = true ∧
      (fvIsFinite (c1A r c) = true → c1B r c = c1A r c)) ∧
    fvSolve 7 1 1 nanMat = .ok none :=
  ⟨claim_C10.1 1 nanMat (by with_unfolding_all rfl),
   claim_C10.2.1 2 c1A c1B (by with_unfolding_all rfl) (by with_unfolding_all rfl),
   claim_C10.2.2 7⟩

theorem fvCells_zero_rows (C : Nat) (A : Nat → Nat → FV) : fvCells 0 C A = [] := by
  simp [fvCells]

/-- **C3** (amended): `solve` performs no input validation and raises no
typed `InvalidInput` error.  A 0×0 matrix runs the whole pipeline and
returns an empty assignment.  A matrix with zero rows and a positive number
of columns (and symmetrically by transposing the roles in the padding
branch), and a nonempty all-infinite matrix, make `solve` fail — but with
the underlying matrix library's `logic_error` from taking `.max()` of an
empty range, not a typed `InvalidInput`.  NaN entries are not detected at
all (see C10). -/
theorem claim_C3 :
    fvSolve 10 0 0 (fun _ _ => FV.num 0) = .ok (some []) ∧
    (∀ fuel C (A : Nat → Nat → FV), C ≠ 0 → fvSolve fuel 0 C A = .error ()) ∧
    (∀ fuel R C (A : Nat → Nat → FV), 0 < R → 0 < C →
      (∀ r c, r < R → c < C → A r c = .pinf) → fvSolve fuel R C A = .error ()) := by
  refine ⟨by with_unfolding_all rfl, ?_, ?_⟩
  · intro fuel C A hC
    have hpad : padStage 0 C A = .error () := by
      unfold padStage
      rw [if_neg (fun h => hC h.symm), fvCells_zero_rows]
      rfl
    unfold fvSolve
    rw [hpad]
    rfl
  · intro fuel R C A hR hC hA
    have hn : 0 < max R C := Nat.lt_of_lt_of_le hR (Nat.le_max_left R C)
    obtain ⟨A1, hpad, hA1⟩ : ∃ A1, padStage R C A = .ok A1 ∧
        ∀ r c, r < max R C → c < max R C → A1 r c = .pinf := by
      by_cases hRC : R = C
      · refine ⟨A, by rw [padStage, if_pos hRC]; rfl, ?_⟩
        intro r c hr hc
        subst hRC
        simp only [Nat.max_self] at hr hc
        exact hA r c hr hc
      · have hmem : FV.pinf ∈ fvCells R C A :=
          mem_fvCells.mpr ⟨0, hC, 0, hR, hA 0 0 hR hC⟩
        have hall : ∀ v ∈ fvCells R C A, v = .pinf := by
          intro v hv
          rcases mem_fvCells.mp hv with ⟨c, hc, r, hr, hval⟩
          exact hval ▸ hA r c hr hc
        have hscan := fvMaxScan_all_pinf (List.ne_nil_of_mem hmem) hall
        refine ⟨fun r c => if r < R ∧ c < C then A r c else FV.pinf, ?_, ?_⟩
        · unfold padStage
          rw [if_neg hRC, hscan]
          rfl
        · intro r c _ _
          by_cases hin : r < R ∧ c < C
          · simpa [hin] using hA r c hin.1 hin.2
          · simp [hin]
    have hinf : (fvCells (max R C) (max R C) A1).any fvIsInf = true :=
      List.any_eq_true.mpr ⟨.pinf, mem_fvCells.mpr ⟨0, hn, 0, hn, hA1 0 0 hn hn⟩, rfl⟩
    have hfilter : (fvCells (max R C) (max R C) A1).filter fvIsFinite = [] := by
      rw [List.filter_eq_nil_iff]
      intro v hv
      rcases mem_fvCells.mp hv with ⟨c, hc, r, hr, hval⟩
      have hvp : v = .pinf := hval ▸ hA1 r c hr hc
      simp [hvp, fvIsFinite]
    have hrep : replaceStage (max R C) A1 = .error () := by
      unfold replaceStage
      rw [if_pos hinf, hfilter]
      rfl
    unfold fvSolve
    rw [hpad]
    show (replaceStage (max R C) A1 >>= _) = Except.error ()
    rw [hrep]
    rfl

/-- **C3** counterexample: the 0×0 matrix — "a matrix with zero rows" — does
not fail with `InvalidInput`; `solve` returns the empty assignment. -/
theorem claim_C3_cex : fvSolve 10 0 0 (fun _ _ => FV.num 0) = .ok (some []) := by
  with_unfolding_all rfl

/-- Witness for `claim_C3`: the 0×5 matrix and the all-infinite 2×2 matrix
both end in the matrix library's empty-`max` error. -/
theorem claim_C3_witness :
    fvSolve 10 0 5 (fun _ _ => FV.num 0) = .error () ∧
      fvSolve 10 2 2 (fun _ _ => FV.pinf) = .error () :=
  ⟨claim_C3.2.1 10 5 (fun _ _ => FV.num 0) (by decide),
   claim_C3.2.2 10 2 2 (fun _ _ => FV.pinf) (by decide) (by decide) (fun _ _ _ _ => rfl)⟩

/-- **C1** counterexample: on `[[+inf, 0], [0, 0]]` (R = C = 2, no NaN, a
finite entry exists, so the claim's precondition holds) `solve` replaces the
infinity with the *maximum finite entry* `0` — not a strictly dominating
value as the source comment announces — and then greedily stars the
diagonal: it returns `[(0, 0), (1, 1)]`, whose total cost
`cost[0][0] + cost[1][1] = +inf`, although `[(0, 1), (1, 0)]` is a pairing
of `min(R, C) = 2` pairs with total cost `0 < +inf`.  The returned total is
therefore not minimal. -/
theorem claim_C1_cex :
    fvSolve 20 2 2 c1A = .ok (some [(0, 0), (1, 1)]) ∧
    ValidPairing 2 2 [(0, 1), (1, 0)] ∧
    fvPairingCost c1A [(0, 0), (1, 1)] = .pinf ∧
    fvPairingCost c1A [(0, 1), (1, 0)] = .num 0 ∧
    fvGt .pinf (.num 0) = true :=
  ⟨by with_unfolding_all rfl, by decide, by with_unfolding_all rfl,
   by with_unfolding_all rfl, rfl⟩

/-! ## Counting toolkit -/

theorem list_sum_range (f : Nat → Nat) : ∀ n, ((List.range n).map f).sum = ∑ i in Finset.range n, f i
  | 0 => rfl
  | n + 1 => by
    rw [List.range_succ, List.map_append, List.sum_append, Finset.sum_range_succ,
      list_sum_range f n]
    simp

theorem filter_range_length (p : Nat → Bool) :
    ∀ n, ((List.range n).filter p).length = ∑ i in Finset.range n, if p i then 1 else 0
  | 0 => rfl
  | n + 1 => by
    rw [List.range_succ, List.filter_append, List.length_append, Finset.sum_range_succ,
      filter_range_length p n]
    by_cases hp : p n <;> simp [hp]

theorem starCount_eq_sum (n : Nat) (m : Nat → Nat → Nat) :
    starCount n m = ∑ r in Finset.range n, ∑ c in Finset.range n,
      if m r c = STAR then 1 else 0 := by
  unfold starCount
  rw [list_sum_range]
  refine Finset.sum_congr rfl fun r _ => ?_
  rw [filter_range_length]
  refine Finset.sum_congr rfl fun c _ => ?_
  by_cases h : m r c = STAR <;> simp [h]

theorem starCount_comm (n : Nat) (m : Nat → Nat → Nat) :
    starCount n m = ∑ c in Finset.range n, ∑ r in Finset.range n,
      if m r c = STAR then 1 else 0 := by
  rw [starCount_eq_sum, Finset.sum_comm]

theorem unique_row_sum_le (n : Nat) (m : Nat → Nat → Nat) (r : Nat)
    (h : ∀ c c', m r c = STAR → m r c' = STAR → c = c') :
    (∑ c in Finset.range n, if m r c = STAR then 1 else 0) ≤ 1 := by
  by_cases hex : ∃ c, c ∈ Finset.range n ∧ m r c = STAR
  · rcases hex with ⟨c0, hc0, hs0⟩
    have : ∀ c ∈ Finset.range n, (if m r c = STAR then 1 else 0) ≤ if c = c0 then 1 else 0 := by
      intro c _
      by_cases hs : m r c = STAR
      · obtain rfl := h c c0 hs hs0
        simp [hs]
      · simp [hs]
    calc (∑ c in Finset.range n, if m r c = STAR then 1 else 0)
        ≤ ∑ c in Finset.range n, if c = c0 then 1 else 0 := Finset.sum_le_sum this
      _ ≤ 1 := by
          rw [Finset.sum_ite_eq' (Finset.range n) c0 fun _ => 1]
          split <;> simp
  · have : ∀ c ∈ Finset.range n, (if m r c = STAR then 1 else 0) = 0 := by
      intro c hc
      by_cases hs : m r c = STAR
      · exact absurd ⟨c, hc, hs⟩ hex
      · simp [hs]
    rw [Finset.sum_congr rfl this]
    simp

theorem unique_col_sum_le (n : Nat) (m : Nat → Nat → Nat) (c : Nat)
    (h : ∀ r r', m r c = STAR → m r' c = STAR → r = r') :
    (∑ r in Finset.range n, if m r c = STAR then 1 else 0) ≤ 1 := by
  by_cases hex : ∃ r, r ∈ Finset.range n ∧ m r c = STAR
  · rcases hex with ⟨r0, hr0, hs0⟩
    have : ∀ r ∈ Finset.range n, (if m r c = STAR then 1 else 0) ≤ if r = r0 then 1 else 0 := by
      intro r _
      by_cases hs : m r c = STAR
      · obtain rfl := h r r0 hs hs0
        simp [hs]
      · simp [hs]
    calc (∑ r in Finset.range n, if m r c = STAR then 1 else 0)
        ≤ ∑ r in Finset.range n, if r = r0 then 1 else 0 := Finset.sum_le_sum this
      _ ≤ 1 := by
          rw [Finset.sum_ite_eq' (Finset.range n) r0 fun _ => 1]
          split <;> simp
  · have : ∀ r ∈ Finset.range n, (if m r c = STAR then 1 else 0) = 0 := by
      intro r hr
      by_cases hs : m r c = STAR
      · exact absurd ⟨r, hr, hs⟩ hex
      · simp [hs]
    rw [Finset.sum_congr rfl this]
    simp

theorem starCount_le (n : Nat) (m : Nat → Nat → Nat)
    (h : ∀ r c c', m r c = STAR → m r c' = STAR → c = c') :
    starCount n m ≤ n := by
  rw [starCount_eq_sum]
  calc (∑ r in Finset.range n, ∑ c in Finset.range n, if m r c = STAR then 1 else 0)
      ≤ ∑ r in Finset.range n, 1 :=
        Finset.sum_le_sum fun r _ => unique_row_sum_le n m r fun c c' => h r c c'
    _ = n := by simp

theorem covRowCount_le_starCount {s : St ℚ}
    (hstar : ∀ r, r < s.n → s.row_mask_ r = true → ∃ c, c < s.n ∧ s.mask_ r c = STAR) :
    covRowCount s ≤ starCount s.n s.mask_ := by
  unfold covRowCount
  rw [filter_range_length, starCount_eq_sum]
  refine Finset.sum_le_sum fun r hr => ?_
  by_cases hc : s.row_mask_ r = true
  · rcases hstar r (Finset.mem_range.mp hr) hc with ⟨c, hcn, hs⟩
    have : (1 : Nat) = ∑ c' in {c}, if s.mask_ r c' = STAR then 1 else 0 := by
      rw [Finset.sum_singleton, if_pos hs]
    rw [if_pos hc]
    refine le_trans (le_of_eq this) (Finset.sum_le_sum_of_subset ?_)
    exact Finset.singleton_subset_iff.mpr (Finset.mem_range.mpr hcn)
  · simp [hc]

theorem exists_uncovered_row {s : St ℚ}
    (hstar : ∀ r, r < s.n → s.row_mask_ r = true → ∃ c, c < s.n ∧ s.mask_ r c = STAR)
    (hlt : starCount s.n s.mask_ < s.n) :
    ∃ r, r < s.n ∧ s.row_mask_ r = false := by
  by_contra hno
  push_neg at hno
  have hall : ∀ r ∈ List.range s.n, s.row_mask_ r := by
    intro r hr
    have hne := hno r (List.mem_range.mp hr)
    exact Bool.ne_false_iff.mp hne
  have hcount : covRowCount s = s.n := by
    unfold covRowCount
    rw [List.filter_eq_self.mpr hall, List.length_range]
  have := covRowCount_le_starCount hstar
  omega

theorem exists_uncovered_col {s : St ℚ}
    (hstar : ∀ c, c < s.n → s.col_mask_ c = true → ∃ r, r < s.n ∧ s.mask_ r c = STAR)
    (hlt : starCount s.n s.mask_ < s.n) :
    ∃ c, c < s.n ∧ s.col_mask_ c = false := by
  by_contra hno
  push_neg at hno
  have hall : ∀ c, c < s.n → s.col_mask_ c = true := by
    intro c hc
    exact Bool.ne_false_iff.mp (hno c hc)
  have hge : s.n ≤ starCount s.n s.mask_ := by
    rw [starCount_comm]
    calc s.n = ∑ c in Finset.range s.n, 1 := by simp
      _ ≤ ∑ c in Finset.range s.n, ∑ r in Finset.range s.n,
            if s.mask_ r c = STAR then 1 else 0 := by
          refine Finset.sum_le_sum fun c hc => ?_
          rcases hstar c (Finset.mem_range.mp hc) (hall c (Finset.mem_range.mp hc)) with
            ⟨r, hrn, hs⟩
          have : (1 : Nat) = ∑ r' in {r}, if s.mask_ r' c = STAR then 1 else 0 := by
            rw [Finset.sum_singleton, if_pos hs]
          refine le_trans (le_of_eq this) (Finset.sum_le_sum_of_subset ?_)
          exact Finset.singleton_subset_iff.mpr (Finset.mem_range.mpr hrn)
  omega

end Munkres
